import Mathlib

/-!
Verification development for the document search engine in
`buscador_documentos.py` (class `DocumentSearcher`).

Modelling conventions:
* Python strings are `List Char`; `str.lower` is `Char.toLower` mapped over
  the list (ASCII case folding, which is what the inputs of interest use).
* A Python call that may raise is modelled with `Option`: `none` stands for
  a raised exception, `some v` for a normal return of `v`.
* The filesystem seen by one run is a tree of files and directories; each
  file carries the outcome of extracting its text (`none` when the reader
  raised, which `_extract_text_from_file` converts to the empty string).
* The asynchronous cancellation flag is modelled by the number of loop
  iterations after which the flag is observed set (`cancelAt`).
* Progress percentages are rational numbers; the Python code computes
  `(index / total) * 100` with exact small operands.
-/

/-- Python `str.lower`, modelled with `Char.toLower` (ASCII case folding). -/
def lowerStr (s : List Char) : List Char := s.map Char.toLower

/-- The whitespace characters recognised by Python `str.strip()` (ASCII part). -/
def pyIsSpace (c : Char) : Bool :=
  c == ' ' || c == '\t' || c == '\n' || c == '\r' || c == '\x0b' || c == '\x0c'

/-- Python `str.strip()`: drop whitespace from both ends. -/
def pyStrip (s : List Char) : List Char :=
  ((s.dropWhile pyIsSpace).reverse.dropWhile pyIsSpace).reverse

/-- Python substring test `t in s`: some position of `s` starts with `t`. -/
def pyContains (t : List Char) : List Char → Bool
  | [] => t.isEmpty
  | c :: s => t.isPrefixOf (c :: s) || pyContains t s

/-- Helper for `pyCount`: the scanning loop of CPython `str.count`, where
`skip` is the number of characters still to be jumped over after a match
(a match at position `i` continues the scan at `i + t.length`). -/
def countAux (t : List Char) : Nat → List Char → Nat
  | _, [] => if t.isEmpty then 1 else 0
  | 0, c :: s =>
      if t.isPrefixOf (c :: s) then 1 + countAux t (t.length - 1) s
      else countAux t 0 s
  | k + 1, _ :: s => countAux t k s

/-- Python `s.count(t)`: number of non-overlapping occurrences of `t` in `s`,
scanning left to right and resuming after each match (line 309 of the
source uses `normalized_content.count(normalized_term)`). -/
def pyCount (t s : List Char) : Nat := countAux t 0 s

/-- `l` is a list of starting positions of pairwise non-overlapping
occurrences of `t` in `s`, listed left to right: every listed position is a
real occurrence, and consecutive positions are at least `t.length` apart. -/
def disjointOccs (t s : List Char) (l : List Nat) : Prop :=
  (∀ i ∈ l, t.isPrefixOf (s.drop i) = true) ∧ l.Pairwise fun i j => i + t.length ≤ j

/-- Python `pathlib.PurePath.suffix` helper: index of the last dot of a
file name, or `none` when the name has no dot. -/
def rfindDot (l : List Char) : Option Nat :=
  (l.foldl (fun st c => (st.1 + 1, if c == '.' then some st.1 else st.2))
    ((0, none) : Nat × Option Nat)).2

/-- Python `pathlib.PurePath.suffix` of a file name: the part of the name
from its last dot on, provided that dot is neither the first nor the last
character; otherwise the empty string. -/
def pathSuffix (name : List Char) : List Char :=
  match rfindDot name with
  | none => []
  | some i => if 0 < i ∧ i + 1 < name.length then name.drop i else []

/-- The filesystem subtree a run sees.  A file carries the outcome of
extracting its text (`none`: the reader raised an exception).  A directory
carries a `readable` flag: scanning an unreadable directory raises a
permission error, so its children are never listed. -/
inductive FsTree where
  | file (name : List Char) (readResult : Option (List Char))
  | dir (name : List Char) (readable : Bool) (children : List FsTree)

/-- One path yielded by the directory walk: its full path, final component
name, whether it is a regular file, and (for files) the extraction outcome. -/
structure DirEntry where
  path : List Char
  name : List Char
  isFile : Bool
  readResult : Option (List Char)
deriving DecidableEq

def nameOf : FsTree → List Char
  | .file n _ => n
  | .dir n _ _ => n

def childPath (parent name : List Char) : List Char := parent ++ '/' :: name

def entryOf (parentPath : List Char) : FsTree → DirEntry
  | .file n r => ⟨childPath parentPath n, n, true, r⟩
  | .dir n _ _ => ⟨childPath parentPath n, n, false, none⟩

mutual
/-- Modelled from the spec: `pathlib.Path.rglob` is standard-library code
that is not part of this repository.  Per spec section 4.1 the walk yields
every entry below the root, skips the contents of a directory whose scan
raises a permission error while continuing with its siblings, never fails
the whole call, and yields nothing when the root is not a readable
directory. -/
def rglobTree (selfPath : List Char) : FsTree → List DirEntry
  | .file _ _ => []
  | .dir _ readable children => if readable then rglobKids selfPath children else []

/-- The entries yielded below a readable directory: each child, followed by
the walk of that child, followed by the remaining siblings. -/
def rglobKids (parentPath : List Char) : List FsTree → List DirEntry
  | [] => []
  | t :: ts =>
      (entryOf parentPath t :: rglobTree (childPath parentPath (nameOf t)) t)
        ++ rglobKids parentPath ts
end

/-- `DocumentSearcher.SUPPORTED_EXTENSIONS` (source line 115). -/
def SUPPORTED_EXTENSIONS : List (List Char) :=
  [".txt".toList, ".docx".toList, ".pdf".toList, ".xlsx".toList,
   ".xls".toList, ".html".toList, ".htm".toList, ".php".toList]

/-- The filter of `_get_supported_files` (source line 357):
`file_path.is_file() and file_path.suffix.lower() in SUPPORTED_EXTENSIONS`. -/
def isSupportedFile (e : DirEntry) : Bool :=
  e.isFile && SUPPORTED_EXTENSIONS.contains (lowerStr (pathSuffix e.name))

/-- `DocumentSearcher._get_supported_files` (source lines 343-362): walk the
tree below the root and keep the supported regular files.  The permission
errors the source guards against (line 359) are already absorbed inside the
walk, so the function is total. -/
def get_supported_files (tree : FsTree) (rootPath : List Char) : List DirEntry :=
  (rglobTree rootPath tree).filter isSupportedFile

/-- `DocumentSearcher._extract_text_from_file` (source lines 364-390): any
exception from a concrete reader is caught and converted to the empty
string, so extraction never raises at the loop level. -/
def extract_text_from_file (f : DirEntry) : List Char :=
  match f.readResult with
  | some t => t
  | none => []

/-- Case normalisation of term and content (source lines 278 and 305):
identity when case sensitive, lower-casing otherwise. -/
def normText (case_sensitive : Bool) (s : List Char) : List Char :=
  if case_sensitive then s else lowerStr s

/-- One result dictionary appended at source lines 313-318. -/
structure ResultRecord where
  file : List Char
  filename : List Char
  ftype : List Char
  occurrences : Nat
deriving DecidableEq

/-- One invocation of the progress callback (source lines 325-327). -/
structure ProgressCall where
  percent : ℚ
  fileName : List Char
deriving DecidableEq

/-- The body of one loop iteration of `search_in_directory` (source lines
297-322): extract the text, and when it is non-empty, normalise it, test
containment and build the result record with the occurrence count. -/
def processFile (case_sensitive : Bool) (normalized_term : List Char) (f : DirEntry) :
    Option ResultRecord :=
  let content := extract_text_from_file f
  if content ≠ [] then
    let normalized_content := normText case_sensitive content
    if pyContains normalized_term normalized_content then
      some ⟨f.path, f.name, pathSuffix f.name, pyCount normalized_term normalized_content⟩
    else none
  else none

/-- Whether the asynchronously set cancellation flag is observed at the
check opening iteration `idx` (source line 294), when the flag was set
after `n` files had been processed. -/
def cancelledAt (cancelAt : Option Nat) (idx : Nat) : Bool :=
  match cancelAt with
  | none => false
  | some n => decide (n < idx)

/-- The argument pair of one progress callback (source lines 325-327):
`progress = (index / total_files) * 100` and the file name. -/
def progressOf (total idx : Nat) (name : List Char) : ProgressCall :=
  ⟨((idx : ℚ) / (total : ℚ)) * 100, name⟩

/-- The search loop of `search_in_directory` (source lines 293-334),
started at 1-based index `idx`: check the cancellation flag, process the
file, record the progress callback.  Returns the accumulated result list
and the list of progress callback invocations in order. -/
def searchFrom (case_sensitive : Bool) (normalized_term : List Char) (total : Nat)
    (cancelAt : Option Nat) : Nat → List DirEntry → List ResultRecord × List ProgressCall
  | _, [] => ([], [])
  | idx, f :: rest =>
    if cancelledAt cancelAt idx then ([], [])
    else
      let res := searchFrom case_sensitive normalized_term total cancelAt (idx + 1) rest
      ((processFile case_sensitive normalized_term f).toList ++ res.1,
        progressOf total idx f.name :: res.2)

/-- The two `ValueError`s of `search_in_directory` (source lines 266-270). -/
inductive SearchError where
  | directoryMissing
  | emptyTerm
deriving DecidableEq

/-- `DocumentSearcher.search_in_directory` (source lines 246-337).
`root` is `none` when `os.path.exists(directory)` is false.  The `use_ocr`
flag only selects the PDF extractor, whose outcome is already recorded in
each entry's `readResult`, so it does not otherwise enter this level. -/
def search_in_directory (root : Option FsTree) (rootPath term : List Char)
    (case_sensitive use_ocr : Bool) (cancelAt : Option Nat) :
    Except SearchError (List ResultRecord × List ProgressCall) :=
  match root with
  | none => .error .directoryMissing
  | some tree =>
    if pyStrip term = [] then .error .emptyTerm
    else
      let normalized_term := if case_sensitive then term else lowerStr term
      let files_to_search := get_supported_files tree rootPath
      let total_files := files_to_search.length
      if total_files = 0 then .ok ([], [])
      else .ok (searchFrom case_sensitive normalized_term total_files cancelAt 1 files_to_search)

/-- Python truthiness of an optional string path: `not self.tesseract_path`
is true when the attribute is `None` or the empty string. -/
def strFalsy : Option (List Char) → Bool
  | none => true
  | some s => s.isEmpty

/-- Per-page handling inside `_extract_text_with_ocr` (source lines
499-524): a page whose recognition raised (`none`) is skipped, a recognised
text is kept only when its stripped length is positive. -/
def keepPage : Option (List Char) → Option (List Char)
  | none => none
  | some t => if pyStrip t ≠ [] then some t else none

/-- Python `sep.join(parts)`. -/
def joinSep (sep : List Char) : List (List Char) → List Char
  | [] => []
  | [x] => x
  | x :: y :: ys => x ++ sep ++ joinSep sep (y :: ys)

/-- `DocumentSearcher._extract_text_with_ocr` (source lines 469-537).
`raster` is the outcome of `convert_from_path`: `none` when rasterization
raised (caught at line 532 and converted to the empty string), otherwise
the per-page recognition outcomes.  Kept pages are joined with a blank
line (source line 526). -/
def extract_text_with_ocr (ocrAvailable : Bool)
    (raster : Option (List (Option (List Char)))) : List Char :=
  if !ocrAvailable then []
  else
    match raster with
    | none => []
    | some pages => joinSep "\n\n".toList (pages.filterMap keepPage)

/-- `DocumentSearcher._read_pdf_with_ocr` (source lines 428-467).
`nativeText` is the result of `_read_pdf` on the same file.  When the OCR
libraries are missing or either tool path is unset, fall back to native
extraction (line 439-441); otherwise run the OCR pipeline.  The handler at
lines 462-467 only covers exceptions of the debug logging, because
`_extract_text_with_ocr` catches every exception of the pipeline itself. -/
def read_pdf_with_ocr (ocrAvailable : Bool) (tesseract_path poppler_path : Option (List Char))
    (raster : Option (List (Option (List Char)))) (nativeText : List Char) : List Char :=
  if !ocrAvailable || strFalsy tesseract_path || strFalsy poppler_path then nativeText
  else extract_text_with_ocr ocrAvailable raster

/-- The list of progress callback invocations a full (uncancelled) run over
`files` performs, starting at 1-based index `idx`. -/
def expProg (total : Nat) : Nat → List DirEntry → List ProgressCall
  | _, [] => []
  | idx, f :: rest => progressOf total idx f.name :: expProg total (idx + 1) rest

theorem countAux_skip (t : List Char) :
    ∀ (s : List Char) (k : Nat), countAux t k s = countAux t 0 (s.drop k) := by
  intro s
  induction s with
  | nil => intro k; simp [countAux]
  | cons c s ih =>
    intro k
    cases k with
    | zero => rfl
    | succ k => simpa [countAux] using ih k

theorem pyCount_nil (t : List Char) : pyCount t [] = if t.isEmpty then 1 else 0 := rfl

theorem pyCount_cons (t : List Char) (c : Char) (s : List Char) :
    pyCount t (c :: s) =
      if t.isPrefixOf (c :: s) then 1 + pyCount t (s.drop (t.length - 1))
      else pyCount t s := by
  show countAux t 0 (c :: s) = _
  rw [show countAux t 0 (c :: s) =
      (if t.isPrefixOf (c :: s) then 1 + countAux t (t.length - 1) s else countAux t 0 s) from rfl,
    countAux_skip t s (t.length - 1)]
  rfl

theorem pyCount_cons_pos (t : List Char) (c : Char) (s : List Char)
    (hp : t.isPrefixOf (c :: s) = true) :
    pyCount t (c :: s) = 1 + pyCount t (s.drop (t.length - 1)) := by
  rw [pyCount_cons, if_pos hp]

theorem pyCount_cons_neg (t : List Char) (c : Char) (s : List Char)
    (hp : t.isPrefixOf (c :: s) = false) :
    pyCount t (c :: s) = pyCount t s := by
  rw [pyCount_cons, if_neg (by simp [hp])]

theorem isPrefixOf_nil_false (t : List Char) (ht : t ≠ []) :
    t.isPrefixOf ([] : List Char) = false := by
  cases t with
  | nil => exact absurd rfl ht
  | cons a t => rfl

theorem pyCount_nil_of_ne (t : List Char) (ht : t ≠ []) : pyCount t [] = 0 := by
  rw [pyCount_nil]
  simp [List.isEmpty_iff, ht]

theorem pyContains_iff_one_le_count (t : List Char) (ht : t ≠ []) :
    ∀ s : List Char, pyContains t s = true ↔ 1 ≤ pyCount t s := by
  intro s
  induction s with
  | nil =>
    rw [pyCount_nil_of_ne t ht]
    simp [pyContains, List.isEmpty_iff, ht]
  | cons c s ih =>
    rw [pyCount_cons]
    cases hp : t.isPrefixOf (c :: s) with
    | true => simp [pyContains, hp]
    | false => simpa [pyContains, hp] using ih

theorem pyCount_exists_disjoint (t : List Char) (ht : t ≠ []) :
    ∀ (n : Nat) (s : List Char), s.length ≤ n →
      ∃ l, disjointOccs t s l ∧ l.length = pyCount t s := by
  intro n
  induction n with
  | zero =>
    intro s hs
    have hsnil : s = [] := List.eq_nil_of_length_eq_zero (Nat.le_zero.mp hs)
    subst hsnil
    exact ⟨[], ⟨by simp, List.Pairwise.nil⟩, by simp [pyCount_nil_of_ne t ht]⟩
  | succ n ih =>
    intro s hs
    cases s with
    | nil =>
      exact ⟨[], ⟨by simp, List.Pairwise.nil⟩, by simp [pyCount_nil_of_ne t ht]⟩
    | cons c s =>
      have hs' : s.length ≤ n := by simpa using hs
      cases hp : t.isPrefixOf (c :: s) with
      | false =>
        obtain ⟨l, ⟨hocc, hpw⟩, hlen⟩ := ih s hs'
        refine ⟨l.map (· + 1), ⟨?_, ?_⟩, ?_⟩
        · intro i hi
          obtain ⟨j, hj, rfl⟩ := List.mem_map.mp hi
          simpa [List.drop_succ_cons] using hocc j hj
        · refine List.pairwise_map.mpr (hpw.imp ?_)
          intro a b hab
          omega
        · rw [List.length_map, hlen, pyCount_cons_neg t c s hp]
      | true =>
        have htlen : 1 ≤ t.length := by
          cases t with
          | nil => exact absurd rfl ht
          | cons a t => simp
        have hdlen : (s.drop (t.length - 1)).length ≤ n := by
          have := List.length_drop (t.length - 1) s
          omega
        obtain ⟨l, ⟨hocc, hpw⟩, hlen⟩ := ih (s.drop (t.length - 1)) hdlen
        refine ⟨0 :: l.map (· + t.length), ⟨?_, ?_⟩, ?_⟩
        · intro i hi
          rcases List.mem_cons.mp hi with h0 | hmem
          · subst h0; simpa using hp
          · obtain ⟨j, hj, rfl⟩ := List.mem_map.mp hmem
            have hdrop : (c :: s).drop (j + t.length) = (s.drop (t.length - 1)).drop j := by
              rw [List.drop_drop]
              have hidx : j + t.length = (j + (t.length - 1)) + 1 := by omega
              rw [hidx, List.drop_succ_cons]
              congr 1
              omega
            rw [hdrop]
            exact hocc j hj
        · refine List.pairwise_cons.mpr ⟨?_, ?_⟩
          · intro j hj
            obtain ⟨i, _, rfl⟩ := List.mem_map.mp hj
            omega
          · refine List.pairwise_map.mpr (hpw.imp ?_)
            intro a b hab
            omega
        · rw [List.length_cons, List.length_map, hlen, pyCount_cons_pos t c s hp]
          omega

theorem disjoint_length_le_pyCount (t : List Char) (ht : t ≠ []) :
    ∀ (n : Nat) (s : List Char), s.length ≤ n →
      ∀ l, disjointOccs t s l → l.length ≤ pyCount t s := by
  intro n
  induction n with
  | zero =>
    intro s hs l hl
    have hsnil : s = [] := List.eq_nil_of_length_eq_zero (Nat.le_zero.mp hs)
    subst hsnil
    cases l with
    | nil => simp
    | cons i l =>
      have := hl.1 i (List.mem_cons_self i l)
      rw [List.drop_nil, isPrefixOf_nil_false t ht] at this
      exact absurd this (by simp)
  | succ n ih =>
    intro s hs l hl
    cases s with
    | nil =>
      cases l with
      | nil => simp
      | cons i l =>
        have := hl.1 i (List.mem_cons_self i l)
        rw [List.drop_nil, isPrefixOf_nil_false t ht] at this
        exact absurd this (by simp)
    | cons c s =>
      have htlen : 1 ≤ t.length := by
        cases t with
        | nil => exact absurd rfl ht
        | cons a t => simp
      have hs' : s.length ≤ n := by simpa using hs
      cases hp : t.isPrefixOf (c :: s) with
      | false =>
        have hpos : ∀ i ∈ l, 1 ≤ i := by
          intro i hi
          by_contra h0
          have hi0 : i = 0 := by omega
          subst hi0
          have := hl.1 0 hi
          rw [List.drop_zero, hp] at this
          exact absurd this (by simp)
        have hl' : disjointOccs t s (l.map (· - 1)) := by
          refine ⟨?_, ?_⟩
          · intro i hi
            obtain ⟨j, hj, rfl⟩ := List.mem_map.mp hi
            have hj1 := hpos j hj
            have heq : (c :: s).drop j = s.drop (j - 1) := by
              have hidx : j = (j - 1) + 1 := by omega
              conv_lhs => rw [hidx]
              rw [List.drop_succ_cons]
            rw [← heq]
            exact hl.1 j hj
          · refine List.pairwise_map.mpr (hl.2.imp_of_mem ?_)
            intro a b ha hb hab
            have := hpos a ha
            omega
        have := ih s hs' (l.map (· - 1)) hl'
        rw [List.length_map] at this
        rw [pyCount_cons_neg t c s hp]
        exact this
      | true =>
        cases l with
        | nil => simp
        | cons i l =>
          have hall : ∀ j ∈ l, i + t.length ≤ j := (List.pairwise_cons.mp hl.2).1
          have hpw : l.Pairwise fun a b => a + t.length ≤ b := (List.pairwise_cons.mp hl.2).2
          have hdlen : (s.drop (t.length - 1)).length ≤ n := by
            have := List.length_drop (t.length - 1) s
            omega
          have hl' : disjointOccs t (s.drop (t.length - 1)) (l.map (· - t.length)) := by
            refine ⟨?_, ?_⟩
            · intro j hj
              obtain ⟨a, ha, rfl⟩ := List.mem_map.mp hj
              have hge : t.length ≤ a := by have := hall a ha; omega
              have hdrop : (s.drop (t.length - 1)).drop (a - t.length) = (c :: s).drop a := by
                rw [List.drop_drop]
                have hidx : a = (a - t.length + (t.length - 1)) + 1 := by omega
                conv_rhs => rw [hidx]
                rw [List.drop_succ_cons]
                congr 1
                omega
              rw [hdrop]
              exact hl.1 a (List.mem_cons_of_mem i ha)
            · refine List.pairwise_map.mpr (hpw.imp_of_mem ?_)
              intro a b ha hb hab
              have hge : t.length ≤ a := by have := hall a ha; omega
              omega
          have hrec := ih (s.drop (t.length - 1)) hdlen (l.map (· - t.length)) hl'
          rw [List.length_map] at hrec
          rw [pyCount_cons_pos t c s hp, List.length_cons]
          omega

theorem pyCount_isGreatest (t s : List Char) (ht : t ≠ []) :
    IsGreatest {m | ∃ l, disjointOccs t s l ∧ l.length = m} (pyCount t s) := by
  constructor
  · obtain ⟨l, hl, hlen⟩ := pyCount_exists_disjoint t ht s.length s le_rfl
    exact ⟨l, hl, hlen⟩
  · rintro m ⟨l, hl, rfl⟩
    exact disjoint_length_le_pyCount t ht s.length s le_rfl l hl

theorem searchFrom_none_snd (cs : Bool) (nt : List Char) (total : Nat) :
    ∀ (files : List DirEntry) (idx : Nat),
      (searchFrom cs nt total none idx files).2 = expProg total idx files := by
  intro files
  induction files with
  | nil => intro idx; rfl
  | cons f rest ih => intro idx; simp [searchFrom, cancelledAt, expProg, ih]

theorem searchFrom_none_fst (cs : Bool) (nt : List Char) (total : Nat) :
    ∀ (files : List DirEntry) (idx : Nat),
      (searchFrom cs nt total none idx files).1 = files.filterMap (processFile cs nt) := by
  intro files
  induction files with
  | nil => intro idx; rfl
  | cons f rest ih =>
    intro idx
    cases h : processFile cs nt f with
    | none => simp [searchFrom, cancelledAt, List.filterMap_cons, h, ih]
    | some r => simp [searchFrom, cancelledAt, List.filterMap_cons, h, ih]

theorem searchFrom_cancel (cs : Bool) (nt : List Char) (total n : Nat) :
    ∀ (files : List DirEntry) (idx : Nat),
      searchFrom cs nt total (some n) idx files
        = searchFrom cs nt total none idx (files.take (n + 1 - idx)) := by
  intro files
  induction files with
  | nil => intro idx; simp [searchFrom]
  | cons f rest ih =>
    intro idx
    by_cases hc : n < idx
    · have h0 : n + 1 - idx = 0 := by omega
      simp [searchFrom, cancelledAt, hc, h0]
    · have h1 : n + 1 - idx = (n + 1 - (idx + 1)) + 1 := by omega
      rw [h1, List.take_succ_cons]
      simp [searchFrom, cancelledAt, hc, ih]

theorem expProg_length (total : Nat) :
    ∀ (files : List DirEntry) (idx : Nat), (expProg total idx files).length = files.length := by
  intro files
  induction files with
  | nil => intro idx; rfl
  | cons f rest ih => intro idx; simp [expProg, ih]

theorem expProg_getElem (total : Nat) :
    ∀ (files : List DirEntry) (idx k : Nat),
      (expProg total idx files)[k]? = files[k]?.map fun f => progressOf total (idx + k) f.name := by
  intro files
  induction files with
  | nil => intro idx k; simp [expProg]
  | cons f rest ih =>
    intro idx k
    cases k with
    | zero => simp [expProg]
    | succ k =>
      simp only [expProg, List.getElem?_cons_succ]
      rw [ih (idx + 1) k]
      have hidx : idx + 1 + k = idx + (k + 1) := by omega
      rw [hidx]

theorem percent_mono (total a b : Nat) (hab : a ≤ b) :
    ((a : ℚ) / (total : ℚ)) * 100 ≤ ((b : ℚ) / (total : ℚ)) * 100 := by
  rcases Nat.eq_zero_or_pos total with h0 | hpos
  · subst h0; simp
  · have ht : (0 : ℚ) < (total : ℚ) := by exact_mod_cast hpos
    have hab' : (a : ℚ) ≤ (b : ℚ) := by exact_mod_cast hab
    gcongr

theorem percent_eq_100_iff (total m : Nat) (hpos : 0 < total) :
    ((m : ℚ) / (total : ℚ)) * 100 = 100 ↔ m = total := by
  have ht : (total : ℚ) ≠ 0 := by
    have : (0 : ℚ) < (total : ℚ) := by exact_mod_cast hpos
    exact ne_of_gt this
  rw [div_mul_eq_mul_div, div_eq_iff ht]
  constructor
  · intro h
    have h' : m * 100 = 100 * total := by exact_mod_cast h
    omega
  · intro h
    subst h
    ring

theorem percent_lt_100 (total m : Nat) (hm : m < total) :
    ((m : ℚ) / (total : ℚ)) * 100 < 100 := by
  have hpos : 0 < total := by omega
  have ht : (0 : ℚ) < (total : ℚ) := by exact_mod_cast hpos
  have hm' : (m : ℚ) < (total : ℚ) := by exact_mod_cast hm
  have hdiv : (m : ℚ) / (total : ℚ) < 1 := (div_lt_one ht).mpr hm'
  have := mul_lt_mul_of_pos_right hdiv (by norm_num : (0 : ℚ) < 100)
  simpa using this

theorem expProg_chain (total : Nat) :
    ∀ (files : List DirEntry) (idx : Nat),
      List.Chain' (fun p q => p.percent ≤ q.percent) (expProg total idx files) := by
  intro files
  induction files with
  | nil => intro idx; simp [expProg]
  | cons f rest ih =>
    intro idx
    cases rest with
    | nil => simp [expProg]
    | cons g rest2 =>
      have hstep : (progressOf total idx f.name).percent
          ≤ (progressOf total (idx + 1) g.name).percent := by
        have := percent_mono total idx (idx + 1) (by omega)
        simpa [progressOf] using this
      have htail := ih (idx + 1)
      simp only [expProg] at htail ⊢
      exact List.Chain'.cons hstep htail

theorem expProg_mem (total : Nat) (files : List DirEntry) (idx : Nat) (p : ProgressCall)
    (hp : p ∈ expProg total idx files) :
    ∃ k f, files[k]? = some f ∧ p = progressOf total (idx + k) f.name := by
  obtain ⟨k, hk⟩ := List.mem_iff_getElem?.mp hp
  rw [expProg_getElem total files idx k] at hk
  cases hf : files[k]? with
  | none => rw [hf] at hk; simp at hk
  | some f =>
    rw [hf] at hk
    simp at hk
    exact ⟨k, f, hf, hk.symm⟩

theorem rglobKids_append (p : List Char) :
    ∀ xs ys : List FsTree, rglobKids p (xs ++ ys) = rglobKids p xs ++ rglobKids p ys := by
  intro xs ys
  induction xs with
  | nil => simp [rglobKids]
  | cons t ts ih => simp [rglobKids, ih]

theorem joinSep_eq_nil (sep : List Char) :
    ∀ L : List (List Char), (∀ x ∈ L, x ≠ []) → (joinSep sep L = [] ↔ L = []) := by
  intro L hL
  cases L with
  | nil => simp [joinSep]
  | cons x ys =>
    cases ys with
    | nil =>
      have hx := hL x (by simp)
      simp [joinSep, hx]
    | cons y ys2 =>
      have hx := hL x (by simp)
      simp [joinSep, List.append_eq_nil, hx]

theorem normText_nil (case_sensitive : Bool) : normText case_sensitive [] = [] := by
  cases case_sensitive <;> simp [normText, lowerStr]

theorem pyContains_nil_false (t : List Char) (ht : t ≠ []) :
    pyContains t [] = false := by
  simp [pyContains, List.isEmpty_iff, ht]

/-- C1: when the normalized extracted text of a file contains the normalized
search term, the loop body produces a result record whose occurrence count
is `pyCount`, the count of non-overlapping occurrences — the greatest
possible number of pairwise disjoint occurrences of the term in the text —
and a record is produced only with a count of at least 1. -/
theorem claim_C1 (case_sensitive : Bool) (normalized_term : List Char) (f : DirEntry)
    (ht : normalized_term ≠ []) :
    (pyContains normalized_term (normText case_sensitive (extract_text_from_file f)) = true →
      ∃ r, processFile case_sensitive normalized_term f = some r ∧
        r.occurrences
          = pyCount normalized_term (normText case_sensitive (extract_text_from_file f)) ∧
        IsGreatest {m | ∃ l, disjointOccs normalized_term
            (normText case_sensitive (extract_text_from_file f)) l ∧ l.length = m}
          r.occurrences ∧
        1 ≤ r.occurrences)
    ∧ (∀ r, processFile case_sensitive normalized_term f = some r → 1 ≤ r.occurrences) := by
  constructor
  · intro hcont
    have hcne : extract_text_from_file f ≠ [] := by
      intro h0
      rw [h0, normText_nil, pyContains_nil_false normalized_term ht] at hcont
      exact absurd hcont (by simp)
    refine ⟨⟨f.path, f.name, pathSuffix f.name,
        pyCount normalized_term (normText case_sensitive (extract_text_from_file f))⟩,
      ?_, rfl, ?_, ?_⟩
    · simp only [processFile]
      rw [if_pos hcne, if_pos hcont]
    · exact pyCount_isGreatest normalized_term
        (normText case_sensitive (extract_text_from_file f)) ht
    · exact (pyContains_iff_one_le_count normalized_term ht
        (normText case_sensitive (extract_text_from_file f))).mp hcont
  · intro r hr
    simp only [processFile] at hr
    by_cases h1 : extract_text_from_file f ≠ []
    · rw [if_pos h1] at hr
      by_cases h2 : pyContains normalized_term
          (normText case_sensitive (extract_text_from_file f)) = true
      · rw [if_pos h2] at hr
        have hocc : r.occurrences
            = pyCount normalized_term (normText case_sensitive (extract_text_from_file f)) := by
          cases hr
          rfl
        rw [hocc]
        exact (pyContains_iff_one_le_count normalized_term ht
          (normText case_sensitive (extract_text_from_file f))).mp h2
      · rw [if_neg h2] at hr
        cases hr
    · rw [if_neg h1] at hr
      cases hr

/-- C1 witness: content `"aaa"` searched for term `"aa"` matches, the record
count is `pyCount "aa" "aaa"`, and that count evaluates to 1, not 2. -/
theorem claim_C1_witness :
    ("aa".toList ≠ [] ∧
      pyContains "aa".toList (normText true (extract_text_from_file
        ⟨"/d/a.txt".toList, "a.txt".toList, true, some "aaa".toList⟩)) = true)
    ∧ (∃ r, processFile true "aa".toList
          ⟨"/d/a.txt".toList, "a.txt".toList, true, some "aaa".toList⟩ = some r ∧
        r.occurrences = pyCount "aa".toList (normText true (extract_text_from_file
          ⟨"/d/a.txt".toList, "a.txt".toList, true, some "aaa".toList⟩)) ∧
        IsGreatest {m | ∃ l, disjointOccs "aa".toList
            (normText true (extract_text_from_file
              ⟨"/d/a.txt".toList, "a.txt".toList, true, some "aaa".toList⟩)) l ∧ l.length = m}
          r.occurrences ∧
        1 ≤ r.occurrences)
    ∧ pyCount "aa".toList "aaa".toList = 1 :=
  ⟨⟨by decide, by decide⟩,
    (claim_C1 true "aa".toList
      ⟨"/d/a.txt".toList, "a.txt".toList, true, some "aaa".toList⟩ (by decide)).1 (by decide),
    by decide⟩

/-- C2: in a case-insensitive run, the loop body is invariant under any
change of letter case of the search term and of the extracted content: the
produced record (match decision, occurrence count and all) is identical. -/
theorem claim_C2 (t t' c c' path name : List Char) (isF isF' : Bool)
    (ht : lowerStr t = lowerStr t') (hc : lowerStr c = lowerStr c') :
    processFile false (lowerStr t) ⟨path, name, isF, some c⟩
      = processFile false (lowerStr t') ⟨path, name, isF', some c'⟩ := by
  have hlen : c.length = c'.length := by
    have h := congrArg List.length hc
    simpa [lowerStr] using h
  by_cases hcc : c = []
  · have hcc' : c' = [] := by
      rw [hcc] at hlen
      exact List.eq_nil_of_length_eq_zero hlen.symm
    rw [hcc, hcc']
    simp [processFile, extract_text_from_file]
  · have hcc' : c' ≠ [] := by
      intro h0
      rw [h0] at hlen
      exact hcc (List.eq_nil_of_length_eq_zero hlen)
    simp only [processFile, extract_text_from_file, normText, if_neg, Bool.false_eq_true,
      ite_false]
    rw [if_pos hcc, if_pos hcc', ht, hc]

/-- C2 witness: term `"Invoice"` over content `"the invoice"` behaves as
term `"INVOICE"` over content `"THE InVoIce"`. -/
theorem claim_C2_witness :
    (lowerStr "Invoice".toList = lowerStr "INVOICE".toList ∧
      lowerStr "the invoice".toList = lowerStr "THE InVoIce".toList)
    ∧ processFile false (lowerStr "Invoice".toList)
        ⟨"/d/b.txt".toList, "b.txt".toList, true, some "the invoice".toList⟩
      = processFile false (lowerStr "INVOICE".toList)
        ⟨"/d/b.txt".toList, "b.txt".toList, true, some "THE InVoIce".toList⟩ :=
  ⟨⟨by decide, by decide⟩,
    claim_C2 "Invoice".toList "INVOICE".toList "the invoice".toList "THE InVoIce".toList
      "/d/b.txt".toList "b.txt".toList true true (by decide) (by decide)⟩

/-- C3: a request whose root does not exist, or whose term strips to the
empty string, is rejected with an error before anything is enumerated or
extracted: the returned value carries no result records and no progress
callback invocations, and for a blank term it is the same error for every
filesystem tree. -/
theorem claim_C3 (rootPath term : List Char) (cs ocr : Bool) (cancelAt : Option Nat) :
    search_in_directory none rootPath term cs ocr cancelAt
        = Except.error SearchError.directoryMissing
    ∧ (∀ tree : FsTree, pyStrip term = [] →
        search_in_directory (some tree) rootPath term cs ocr cancelAt
          = Except.error SearchError.emptyTerm) := by
  constructor
  · rfl
  · intro tree hterm
    simp [search_in_directory, hterm]

/-- C3 witness: a run on a missing root is rejected, and a run with a
whitespace-only term is rejected on a concrete tree. -/
theorem claim_C3_witness :
    search_in_directory none "/missing".toList "hola".toList false false none
        = Except.error SearchError.directoryMissing
    ∧ search_in_directory
        (some (FsTree.dir "r".toList true [FsTree.file "a.txt".toList (some "x".toList)]))
        "/r".toList "  ".toList false false none
        = Except.error SearchError.emptyTerm :=
  ⟨(claim_C3 "/missing".toList "hola".toList false false none).1,
    (claim_C3 "/r".toList "  ".toList false false none).2
      (FsTree.dir "r".toList true [FsTree.file "a.txt".toList (some "x".toList)]) (by decide)⟩

/-- C4: when cancellation is observed after `n` of the enumerated files have
been processed, the loop stops at the next iteration and the run is exactly
the uncancelled run over the first `n` files: the same partial result list
(kept, not discarded) and the same progress callback invocations. -/
theorem claim_C4 (case_sensitive : Bool) (normalized_term : List Char) (total n : Nat)
    (files : List DirEntry) :
    searchFrom case_sensitive normalized_term total (some n) 1 files
      = searchFrom case_sensitive normalized_term total none 1 (files.take n) := by
  have h := searchFrom_cancel case_sensitive normalized_term total n files 1
  simpa using h

/-- C5: an unreadable directory inside a readable one is yielded as a bare
entry with its contents skipped, while every sibling before and after it is
walked normally; consequently the supported files collected are exactly
those collected when the unreadable subtree is absent, whatever that
subtree contains. -/
theorem claim_C5 (parentPath dname : List Char) (kids pre post : List FsTree) :
    rglobKids parentPath (pre ++ FsTree.dir dname false kids :: post)
      = rglobKids parentPath pre
          ++ entryOf parentPath (FsTree.dir dname false kids) :: rglobKids parentPath post
    ∧ (rglobKids parentPath (pre ++ FsTree.dir dname false kids :: post)).filter isSupportedFile
        = (rglobKids parentPath (pre ++ post)).filter isSupportedFile := by
  have hDir : rglobKids parentPath (FsTree.dir dname false kids :: post)
      = entryOf parentPath (FsTree.dir dname false kids) :: rglobKids parentPath post := by
    simp [rglobKids, rglobTree]
  have hApp := rglobKids_append parentPath pre (FsTree.dir dname false kids :: post)
  have hApp2 := rglobKids_append parentPath pre post
  constructor
  · rw [hApp, hDir]
  · rw [hApp, hDir, hApp2, List.filter_append, List.filter_append, List.filter_cons]
    have hdirent : isSupportedFile (entryOf parentPath (FsTree.dir dname false kids)) = false :=
      rfl
    simp [hdirent]

/-- C6: over a run on `files` the progress callback fires once per processed
file, with arguments `(index / total * 100, file name)`, whatever the file's
match or extraction outcome; the reported percent is monotonically
non-decreasing for every cancellation behaviour, equals 100 exactly at the
last enumerated file, a run cancelled before the end stays strictly below
100, and an empty enumeration fires zero callbacks. -/
theorem claim_C6 (case_sensitive : Bool) (normalized_term : List Char)
    (files : List DirEntry) (n : Nat) :
    ((searchFrom case_sensitive normalized_term files.length none 1 files).2.length
        = files.length)
    ∧ (∀ (k : Nat) (f : DirEntry), files[k]? = some f →
        ((searchFrom case_sensitive normalized_term files.length none 1 files).2)[k]?
          = some ⟨(((k : ℚ) + 1) / (files.length : ℚ)) * 100, f.name⟩)
    ∧ (∀ cancelAt, List.Chain' (fun p q => p.percent ≤ q.percent)
        (searchFrom case_sensitive normalized_term files.length cancelAt 1 files).2)
    ∧ (∀ (k : Nat) (f : DirEntry), files[k]? = some f →
        ((((k : ℚ) + 1) / (files.length : ℚ)) * 100 = 100 ↔ k + 1 = files.length))
    ∧ (n < files.length →
        ∀ p ∈ (searchFrom case_sensitive normalized_term files.length (some n) 1 files).2,
          p.percent < 100)
    ∧ (files = [] →
        (searchFrom case_sensitive normalized_term files.length none 1 files).2 = []) := by
  refine ⟨?_, ?_, ?_, ?_, ?_, ?_⟩
  · rw [searchFrom_none_snd]
    exact expProg_length files.length files 1
  · intro k f hk
    rw [searchFrom_none_snd, expProg_getElem, hk]
    have hcast : ((1 + k : Nat) : ℚ) = (k : ℚ) + 1 := by push_cast; ring
    simp [progressOf, hcast]
  · intro cancelAt
    cases cancelAt with
    | none =>
      rw [searchFrom_none_snd]
      exact expProg_chain files.length files 1
    | some m =>
      rw [searchFrom_cancel, searchFrom_none_snd]
      exact expProg_chain files.length (files.take (m + 1 - 1)) 1
  · intro k f hk
    have hlt : k < files.length := by
      rcases List.getElem?_eq_some.mp hk with ⟨h, _⟩
      exact h
    have hpos : 0 < files.length := by omega
    have h := percent_eq_100_iff files.length (k + 1) hpos
    have hcast : ((k + 1 : Nat) : ℚ) = (k : ℚ) + 1 := by push_cast; ring
    rw [hcast] at h
    exact h
  · intro hn p hp
    rw [searchFrom_cancel, searchFrom_none_snd] at hp
    obtain ⟨k, f, hkf, rfl⟩ := expProg_mem files.length (files.take (n + 1 - 1)) 1 p hp
    have hk : k < (files.take (n + 1 - 1)).length := by
      rcases List.getElem?_eq_some.mp hkf with ⟨h, _⟩
      exact h
    have hkn : 1 + k < files.length := by
      rw [List.length_take] at hk
      omega
    have := percent_lt_100 files.length (1 + k) hkn
    simpa [progressOf] using this
  · intro h
    rw [h]
    rfl

/-- C6 witness: a concrete two-file run, with cancellation after one file. -/
theorem claim_C6_witness :
    ((searchFrom false "a".toList
        ([⟨"/r/x.txt".toList, "x.txt".toList, true, some "abc".toList⟩,
          ⟨"/r/y.txt".toList, "y.txt".toList, true, none⟩] : List DirEntry).length none 1
        [⟨"/r/x.txt".toList, "x.txt".toList, true, some "abc".toList⟩,
          ⟨"/r/y.txt".toList, "y.txt".toList, true, none⟩]).2.length
      = ([⟨"/r/x.txt".toList, "x.txt".toList, true, some "abc".toList⟩,
          ⟨"/r/y.txt".toList, "y.txt".toList, true, none⟩] : List DirEntry).length)
    ∧ (∀ cancelAt, List.Chain' (fun p q => p.percent ≤ q.percent)
        (searchFrom false "a".toList
          ([⟨"/r/x.txt".toList, "x.txt".toList, true, some "abc".toList⟩,
            ⟨"/r/y.txt".toList, "y.txt".toList, true, none⟩] : List DirEntry).length cancelAt 1
          [⟨"/r/x.txt".toList, "x.txt".toList, true, some "abc".toList⟩,
            ⟨"/r/y.txt".toList, "y.txt".toList, true, none⟩]).2)
    ∧ (∀ p ∈ (searchFrom false "a".toList
          ([⟨"/r/x.txt".toList, "x.txt".toList, true, some "abc".toList⟩,
            ⟨"/r/y.txt".toList, "y.txt".toList, true, none⟩] : List DirEntry).length (some 1) 1
          [⟨"/r/x.txt".toList, "x.txt".toList, true, some "abc".toList⟩,
            ⟨"/r/y.txt".toList, "y.txt".toList, true, none⟩]).2,
        p.percent < 100) :=
  ⟨(claim_C6 false "a".toList
      [⟨"/r/x.txt".toList, "x.txt".toList, true, some "abc".toList⟩,
        ⟨"/r/y.txt".toList, "y.txt".toList, true, none⟩] 1).1,
    (claim_C6 false "a".toList
      [⟨"/r/x.txt".toList, "x.txt".toList, true, some "abc".toList⟩,
        ⟨"/r/y.txt".toList, "y.txt".toList, true, none⟩] 1).2.2.1,
    (claim_C6 false "a".toList
      [⟨"/r/x.txt".toList, "x.txt".toList, true, some "abc".toList⟩,
        ⟨"/r/y.txt".toList, "y.txt".toList, true, none⟩] 1).2.2.2.2.1 (by decide)⟩

/-- C7 (amended): with the OCR flag requested, a missing OCR library or an
unset tool path degrades extraction to native-only PDF extraction without
error; but an exception raised during rasterization is caught inside the
OCR extraction step and yields the empty string for that file — it does not
fall back to native extraction.  In neither case does the run fail. -/
theorem claim_C7 (ocrAvailable : Bool) (tesseract_path poppler_path : Option (List Char))
    (raster : Option (List (Option (List Char)))) (nativeText : List Char) :
    ((ocrAvailable = false ∨ strFalsy tesseract_path = true ∨ strFalsy poppler_path = true) →
        read_pdf_with_ocr ocrAvailable tesseract_path poppler_path raster nativeText
          = nativeText)
    ∧ (strFalsy tesseract_path = false → strFalsy poppler_path = false → raster = none →
        read_pdf_with_ocr true tesseract_path poppler_path raster nativeText = []) := by
  constructor
  · intro h
    rcases h with h | h | h <;> simp [read_pdf_with_ocr, h]
  · intro h1 h2 hr
    subst hr
    simp [read_pdf_with_ocr, extract_text_with_ocr, h1, h2]

/-- C7 counterexample: OCR flag on, OCR environment fully configured, the
rasterizer raises — the claimed fallback to native-only extraction does not
happen: the extracted text is empty, not the non-empty native text. -/
theorem claim_C7_counterexample :
    read_pdf_with_ocr true (some "/t/tesseract".toList) (some "/p/bin".toList) none
        "ghost".toList = []
    ∧ read_pdf_with_ocr true (some "/t/tesseract".toList) (some "/p/bin".toList) none
        "ghost".toList ≠ "ghost".toList := by
  constructor
  · rfl
  · decide

/-- C7 witness: unavailable OCR libraries fall back to the native text, and
a configured environment with a raising rasterizer yields the empty string. -/
theorem claim_C7_witness :
    read_pdf_with_ocr false none none none "native".toList = "native".toList
    ∧ read_pdf_with_ocr true (some "/t".toList) (some "/p".toList) none "native".toList = [] :=
  ⟨(claim_C7 false none none none "native".toList).1 (Or.inl rfl),
    (claim_C7 true (some "/t".toList) (some "/p".toList) none "native".toList).2
      (by decide) (by decide) rfl⟩

/-- C8: with the OCR flag on and both tool paths configured, the result does
not consult the native text at all; when rasterization succeeds the result
is the blank-line join of the per-page texts that survive (pages whose
recognition raised or whose stripped text is empty are skipped), and the
result is empty exactly when every page is skipped that way. -/
theorem claim_C8 (tesseract_path poppler_path : Option (List Char))
    (pages : List (Option (List Char))) (native native2 : List Char)
    (h1 : strFalsy tesseract_path = false) (h2 : strFalsy poppler_path = false) :
    (∀ raster, read_pdf_with_ocr true tesseract_path poppler_path raster native
        = read_pdf_with_ocr true tesseract_path poppler_path raster native2)
    ∧ read_pdf_with_ocr true tesseract_path poppler_path (some pages) native
        = joinSep "\n\n".toList (pages.filterMap keepPage)
    ∧ (read_pdf_with_ocr true tesseract_path poppler_path (some pages) native = []
        ↔ ∀ p ∈ pages, ∀ t, p = some t → pyStrip t = []) := by
  have hred : ∀ (raster : Option (List (Option (List Char)))) (native0 : List Char),
      read_pdf_with_ocr true tesseract_path poppler_path raster native0
        = extract_text_with_ocr true raster := by
    intro raster native0
    simp [read_pdf_with_ocr, h1, h2]
  have hform : extract_text_with_ocr true (some pages)
      = joinSep "\n\n".toList (pages.filterMap keepPage) := by
    simp [extract_text_with_ocr]
  refine ⟨?_, ?_, ?_⟩
  · intro raster
    rw [hred, hred]
  · rw [hred, hform]
  · rw [hred, hform]
    have hne : ∀ x ∈ pages.filterMap keepPage, x ≠ [] := by
      intro x hx
      obtain ⟨p, hp, hkp⟩ := List.mem_filterMap.mp hx
      cases p with
      | none => simp [keepPage] at hkp
      | some t =>
        by_cases hstrip : pyStrip t = []
        · simp [keepPage, hstrip] at hkp
        · have hkx : x = t := by
            simp [keepPage, hstrip] at hkp
            exact hkp.symm
          subst hkx
          intro h0
          rw [h0] at hstrip
          exact hstrip rfl
    rw [joinSep_eq_nil _ _ hne, List.filterMap_eq_nil_iff]
    constructor
    · intro hall p hp t hpt
      have h := hall p hp
      rw [hpt] at h
      by_contra hs
      simp [keepPage, hs] at h
    · intro hall p hp
      cases p with
      | none => rfl
      | some t =>
        have h := hall (some t) hp t rfl
        simp [keepPage, h]

/-- C8 witness: a three-page document with one recognised page, one raising
page and one blank page yields exactly the recognised text, independently
of the native text. -/
theorem claim_C8_witness :
    (∀ raster, read_pdf_with_ocr true (some "/t".toList) (some "/p".toList) raster "aaa".toList
        = read_pdf_with_ocr true (some "/t".toList) (some "/p".toList) raster "bbb".toList)
    ∧ read_pdf_with_ocr true (some "/t".toList) (some "/p".toList)
        (some [some "hello".toList, none, some "  ".toList]) "aaa".toList
        = joinSep "\n\n".toList
            ([some "hello".toList, none, some "  ".toList].filterMap keepPage) :=
  ⟨(claim_C8 (some "/t".toList) (some "/p".toList)
      [some "hello".toList, none, some "  ".toList] "aaa".toList "bbb".toList
      (by decide) (by decide)).1,
    (claim_C8 (some "/t".toList) (some "/p".toList)
      [some "hello".toList, none, some "  ".toList] "aaa".toList "bbb".toList
      (by decide) (by decide)).2.1⟩

/-- C9: the enumerator keeps a walked path exactly when it is a regular file
whose lower-cased extension lies in the fixed supported set (so extension
matching is case-insensitive and every other extension is excluded). -/
theorem claim_C9 (rootPath : List Char) (tree : FsTree) (e : DirEntry) :
    e ∈ get_supported_files tree rootPath
      ↔ e ∈ rglobTree rootPath tree ∧ e.isFile = true ∧
          lowerStr (pathSuffix e.name) ∈
            [".txt".toList, ".docx".toList, ".pdf".toList, ".xlsx".toList,
             ".xls".toList, ".html".toList, ".htm".toList, ".php".toList] := by
  rw [get_supported_files, List.mem_filter]
  simp [isSupportedFile, SUPPORTED_EXTENSIONS, and_assoc]

/-- C10: an existing root that is a regular file rather than a directory
passes validation (only existence is checked), and the run completes
normally with an empty result list and zero progress callbacks, because the
walk of a non-directory yields no candidate files. -/
theorem claim_C10 (fname rootPath term : List Char) (r : Option (List Char))
    (cs ocr : Bool) (cancelAt : Option Nat) (hterm : pyStrip term ≠ []) :
    search_in_directory (some (FsTree.file fname r)) rootPath term cs ocr cancelAt
      = Except.ok ([], []) := by
  simp [search_in_directory, hterm, get_supported_files, rglobTree]

/-- C10 witness: a concrete regular-file root with a non-blank term. -/
theorem claim_C10_witness :
    search_in_directory (some (FsTree.file "root.txt".toList (some "hello".toList)))
        "/root.txt".toList "hello".toList false false none = Except.ok ([], []) :=
  claim_C10 "root.txt".toList "/root.txt".toList "hello".toList (some "hello".toList)
    false false none (by decide)
